import Mathlib

/-!
Verification of the PDF paragraph splitter (src/main.cpp) against its
natural-language specification.

Strings are modelled as lists of bytes (`List Nat`, values 0..255), since the
C++ code operates on `std::string` byte-wise.  All definitions below are
shallow embeddings of the corresponding C++ functions, translated line by
line; machine integers are modelled as `Nat` (the only wrap-around that
occurs in the source is `unsigned int dist = -1`, modelled explicitly as
`UINT_MAX`).
-/

namespace PdfSplit

/-- Value of `unsigned int dist = -1` (main.cpp line 64). -/
def UINT_MAX : Nat := 2 ^ 32 - 1

/-! ## Levenshtein distance (main.cpp lines 19-34)

The C++ function fills a `(len1+1) x (len2+1)` table row by row:
`d[0][j] = j`, `d[i][0] = i`, and
`d[i][j] = min({d[i-1][j] + 1, d[i][j-1] + 1, d[i-1][j-1] + (s1[i-1]==s2[j-1] ? 0 : 1)})`.
`rowLoop` computes the entries `d[i][1..n]` of one row from the previous row,
walking the previous row in step with `s2`; `dRow s1 s2 i` is row `i` of the
table; `distance` is the bottom-right entry `d[len1][len2]`. -/

def rowLoop (a : Nat) : List Nat → List Nat → Nat → List Nat
  | [], _, _ => []
  | y :: ys, prev, left =>
      let v := min (min (prev.getD 1 0 + 1) (left + 1))
                   (prev.getD 0 0 + if a = y then 0 else 1)
      v :: rowLoop a ys prev.tail v

def dRow (s1 s2 : List Nat) : Nat → List Nat
  | 0 => List.range (s2.length + 1)
  | i + 1 => (i + 1) :: rowLoop (s1.getD i 0) s2 (dRow s1 s2 i) (i + 1)

/-- Embedding of `distance` (main.cpp lines 19-34): the final table entry
`d[len1][len2]`. -/
def distance (s1 s2 : List Nat) : Nat :=
  (dRow s1 s2 s1.length).getD s2.length 0

/-! ## Whitespace normalization (main.cpp lines 145-146, 190-191)

The source applies `std::regex_replace(s, std::regex("\\s+"), " ")`: every
maximal run of whitespace characters is replaced by a single space.  For the
`char`-based ECMAScript regex, `\s` matches space, tab, LF, VT, FF, CR. -/

def isWs (b : Nat) : Bool := b == 32 || (9 ≤ b && b ≤ 13)

/-- Helper for `normalize`: the boolean records whether we are inside a
whitespace run whose replacement space has already been emitted. -/
def normAux : Bool → List Nat → List Nat
  | _, [] => []
  | inRun, b :: rest =>
      if isWs b then
        if inRun then normAux true rest else 32 :: normAux true rest
      else b :: normAux false rest

/-- Embedding of the `regex_replace(s, "\\s+", " ")` normalization. -/
def normalize (s : List Nat) : List Nat := normAux false s

/-! ## Section matching (`extractText`, main.cpp lines 43-123) -/

/-- Embedding of `std::round((float)L * 0.1f)` (main.cpp line 59) as exact
rounding of `L/10` to the nearest integer, halves away from zero, which is
`(L + 5) / 10` on naturals.  For every length that occurs as a byte length of
a title (far below `2^22`), the single-precision computation in the source
yields exactly this value: `0.1f` is slightly above `1/10`, so products
`L * 0.1f` never cross a rounding boundary downward, and exact halves round
up on both sides. -/
def threshold (L : Nat) : Nat := (L + 5) / 10

/-- One iteration body of the scan loop (main.cpp lines 68-87) at index `i`:
take the substring of length `|sep|` ending at `i`, fold its distance into the
running minimum, and update the position if the minimum improved. -/
def scanStep (content sep : List Nat) (dist pos i : Nat) : Nat × Nat :=
  let sub := (content.drop (i - sep.length)).take sep.length
  let d := min dist (distance sub sep)
  let pos' := if d ≠ dist then i - sep.length else pos
  (d, pos')

/-- Embedding of the scan loop (main.cpp lines 68-87), iterating `i` downward
while `i ≥ sep.length`, stopping early when the running minimum hits `0`.
At `i = 0` the loop body can only run when `sep` is empty, in which case the
computed distance is `0` and the C++ loop stops (either by the early break or
by `i--` ending the loop), returning the same pair. -/
def scanAux (content sep : List Nat) : Nat → Nat → Nat → Nat × Nat
  | dist, pos, 0 =>
      if 0 < sep.length then (dist, pos)
      else scanStep content sep dist pos 0
  | dist, pos, i + 1 =>
      if i + 1 < sep.length then (dist, pos)
      else
        let s := scanStep content sep dist pos (i + 1)
        if s.1 = 0 then s else scanAux content sep s.1 s.2 i

/-- Embedding of the whole scan (main.cpp lines 64-87): `dist` starts at
`UINT_MAX` (`unsigned int dist = -1`), `pos` at `0`, and `i` at
`content.size() - separator.size()`.  In the source this start value is an
`int` and may be negative, in which case the loop runs zero times; with
truncated `Nat` subtraction the start value is then below `sep.length` (or
`sep` is empty and the first iteration already yields distance `0`), so the
result agrees. -/
def scan (content sep : List Nat) : Nat × Nat :=
  scanAux content sep UINT_MAX 0 (content.length - sep.length)

/-- Embedding of the boundary adjustment (main.cpp lines 90-92):
`while(pos > 0 && char(content[pos]) < 0) pos--;`.  A `char` is negative
exactly when the byte is at least `0x80`. -/
def utf8Shift (content : List Nat) : Nat → Nat
  | 0 => 0
  | pos + 1 =>
      if 128 ≤ content.getD (pos + 1) 0 then utf8Shift content pos
      else pos + 1

/-- Modelled from the spec (section 4.4 step 5 wording, for claim C5): shift
the boundary backward over exactly the CONTINUATION bytes of a multi-byte
character, i.e. bytes in `0x80..0xBF`. -/
def contShift (content : List Nat) : Nat → Nat
  | 0 => 0
  | pos + 1 =>
      if 128 ≤ content.getD (pos + 1) 0 && content.getD (pos + 1) 0 < 192 then
        contShift content pos
      else pos + 1

/-- Append a segment to the last section buffer
(`sectionTexts.back().append(first_segment)`, main.cpp line 105).  The
source vector is never empty at this point (it is initialized to `{""}` and
only grows); the empty case is unreachable. -/
def appendBack : List (List Nat) → List Nat → List (List Nat)
  | [], _ => []
  | [last], s => [last ++ s]
  | x :: rest, s => x :: appendBack rest s

/-- Embedding of `extractText` (main.cpp lines 43-123).  The stack of titles
is a list with its head as top; the queue of used sections is a list pushed
at the back.  The state components returned are
`(sections, sectionTexts, usedSections)`; `content` is passed by value in the
source and discarded on return.  The `do`-loop runs once per popped title, so
the recursion is on the stack. -/
def extractText : List (List Nat) → List (List Nat) → List Nat → List (List Nat) →
    List (List Nat) × List (List Nat) × List (List Nat)
  | [], sectionTexts, _, usedSections => ([], sectionTexts, usedSections)
  | separator :: rest, sectionTexts, content, usedSections =>
      let dp := scan content separator
      let pos := utf8Shift content dp.2
      if dp.1 > threshold separator.length then
        (separator :: rest, appendBack sectionTexts content, usedSections)
      else
        extractText rest (appendBack sectionTexts (content.drop pos) ++ [[]])
          (content.take pos) (usedSections ++ [separator])

/-! ## Document conversion (`convertPDF`, main.cpp lines 157-230) -/

/-- External view of a poppler document: its title, the titles of the direct
children of the outline root (absent when `create_toc()` returns null), and
the raw text of each page in page order.  All strings are the UTF-8 byte
strings produced by `toUTF8`. -/
structure PDoc where
  title : List Nat
  toc : Option (List (List Nat))
  pages : List (List Nat)

/-- Embedding of `loadTOC` (main.cpp lines 140-150): each direct child's
title is whitespace-normalized and pushed onto the stack, so the head of the
resulting list (the stack's top) is the LAST outline entry. -/
def loadTOC (children : List (List Nat)) : List (List Nat) :=
  (children.map normalize).reverse

/-- Embedding of the page loop (main.cpp lines 184-197): pages are visited
from the last to the first, each page's text is normalized and fed to
`extractText`.  The caller passes the page texts already reversed. -/
def pagesLoop : List (List Nat) →
    List (List Nat) × List (List Nat) × List (List Nat) →
    List (List Nat) × List (List Nat) × List (List Nat)
  | [], st => st
  | p :: rest, (secs, texts, used) =>
      pagesLoop rest (extractText secs texts (normalize p) used)

/-- Embedding of the trimming loop (main.cpp lines 202-205):
`while(sectionTexts.size() > usedSections.size()) sectionTexts.erase(sectionTexts.end());`.
`erase` is given the PAST-THE-END iterator, which is outside the valid range;
under strict out-of-range semantics (`eraseIdx` at index `length` is the
identity) the loop body never shrinks the vector, so the loop cannot
terminate; the fuel counts loop iterations and `none` means the loop is still
running when the fuel runs out. -/
def trimLoop (texts used : List (List Nat)) : Nat → Option (List (List Nat))
  | 0 => none
  | fuel + 1 =>
      if texts.length > used.length then
        trimLoop (texts.eraseIdx texts.length) used fuel
      else some texts

/-- One output object (main.cpp lines 211-217): exactly the five
string-valued fields `title`, `topic`, `language`, `text`, `paragraph`. -/
structure Record where
  title : List Nat
  topic : List Nat
  language : List Nat
  text : List Nat
  paragraph : List Nat
deriving DecidableEq

/-- Embedding of the emission loop (main.cpp lines 210-221): one record per
section buffer, reading `usedSections.front()` and popping it each time.
The source pops from a queue whose front on emptiness is unreachable in the
intended flow (sizes are equal after trimming); `headD`/`tail` model
front/pop. -/
def emitRecords (title topic language : List Nat) :
    List (List Nat) → List (List Nat) → List Record
  | [], _ => []
  | s :: rest, used =>
      { title := title, topic := topic, language := language,
        text := s, paragraph := used.headD [] }
        :: emitRecords title topic language rest used.tail

/-- Outcome of one `convertPDF` call on a successfully loaded document. -/
inductive ConvOut where
  | skipped
  | hang
  | records (rs : List Record)
deriving DecidableEq

/-- Embedding of `convertPDF` (main.cpp lines 157-230) after a successful
load: if the outline is null the document title is logged and the function
returns without writing anything (`skipped`); otherwise the worklist is
loaded, all pages are processed back to front, the trimming loop runs
(`hang` if it does not terminate within its a-priori iteration bound,
see `trimLoop`), and one JSON array of records is appended. -/
def convertPDFBody (doc : PDoc) (fileName language : List Nat) : ConvOut :=
  match doc.toc with
  | none => ConvOut.skipped
  | some children =>
      let st := pagesLoop doc.pages.reverse (loadTOC children, [[]], [])
      match trimLoop st.2.1 st.2.2 (st.2.1.length + 1) with
      | none => ConvOut.hang
      | some texts =>
          ConvOut.records (emitRecords doc.title fileName language texts st.2.2)

/-- Embedding of `convertPDF` (main.cpp lines 157-230) including the load.
`poppler::document::load_from_file` returns null on failure; the source code
immediately calls `document->get_title()` with no null check (line 163), so a
failed load dereferences a null pointer and the call never completes: this is
modelled as `none` (the whole process crashes, nothing is skipped or
continued). -/
def convertPDF : Option PDoc → List Nat → List Nat → Option ConvOut
  | none, _, _ => none
  | some doc, fileName, language => some (convertPDFBody doc fileName language)

/-! ## Specification-side notions used to state the claims -/

/-- The pattern occurs verbatim as a substring of `s` at offset `o`. -/
def occursAt (pat s : List Nat) (o : Nat) : Prop :=
  (s.drop o).take pat.length = pat ∧ o + pat.length ≤ s.length

/-- Reference Levenshtein recurrence, peeling characters from the front; used
as the mathematical anchor relating the table of `distance` to edit
scripts. -/
def lev : List Nat → List Nat → Nat
  | [], ys => ys.length
  | _ :: xs, [] => xs.length + 1
  | x :: xs, y :: ys =>
      min (min (lev xs (y :: ys) + 1) (lev (x :: xs) ys + 1))
          (lev xs ys + if x = y then 0 else 1)
termination_by xs ys => (xs.length, ys.length)

/-- An edit script transforming the first list into the second with the given
number of single-character insertions, deletions and substitutions. -/
inductive EditScript : List Nat → List Nat → Nat → Prop
  | nil : EditScript [] [] 0
  | keep (c : Nat) {xs ys : List Nat} {n : Nat} :
      EditScript xs ys n → EditScript (c :: xs) (c :: ys) n
  | subst (x y : Nat) {xs ys : List Nat} {n : Nat} :
      EditScript xs ys n → EditScript (x :: xs) (y :: ys) (n + 1)
  | ins (y : Nat) {xs ys : List Nat} {n : Nat} :
      EditScript xs ys n → EditScript xs (y :: ys) (n + 1)
  | del (x : Nat) {xs ys : List Nat} {n : Nat} :
      EditScript xs ys n → EditScript (x :: xs) ys (n + 1)

end PdfSplit

namespace PdfSplit

/-! ## Normalization: idempotence (claim C9) -/

lemma normAux_idem (s : List Nat) :
    normAux false (normAux false s) = normAux false s ∧
    normAux false (normAux true s) = normAux true s ∧
    normAux true (normAux true s) = normAux true s := by
  induction s with
  | nil => exact ⟨rfl, rfl, rfl⟩
  | cons b rest ih =>
    obtain ⟨ih1, ih2, ih3⟩ := ih
    by_cases hb : isWs b = true
    · simp only [isWs, Bool.or_eq_true, beq_iff_eq, Bool.and_eq_true, decide_eq_true_eq] at hb
      refine ⟨?_, ?_, ?_⟩ <;> simp [normAux, isWs, hb, ih1, ih2, ih3]
    · simp only [isWs, Bool.or_eq_true, beq_iff_eq, Bool.and_eq_true, decide_eq_true_eq] at hb
      refine ⟨?_, ?_, ?_⟩ <;> simp [normAux, isWs, hb, ih1, ih2, ih3]

/-- Claim C9: normalization (collapsing each maximal whitespace run to a
single space) is idempotent: `normalize (normalize s) = normalize s` for
every byte string `s`. -/
theorem normalize_idempotent : ∀ s : List Nat, normalize (normalize s) = normalize s :=
  fun s => (normAux_idem s).1

/-! ## Empty worklist: frame property (claim C10) -/

/-- Claim C10: when the worklist of titles is empty, `extractText` returns
immediately, leaving the section text buffers and the matched-title log
unchanged; consequently the page loop run with an empty worklist leaves the
whole state unchanged, so no further page text is ever appended to any
section. -/
theorem empty_worklist_frame :
    (∀ (texts : List (List Nat)) (content : List Nat) (used : List (List Nat)),
      extractText [] texts content used = ([], texts, used)) ∧
    (∀ (pages texts used : List (List Nat)),
      pagesLoop pages ([], texts, used) = ([], texts, used)) := by
  constructor
  · intro texts content used; rfl
  · intro pages
    induction pages with
    | nil => intro texts used; rfl
    | cons p rest ih =>
      intro texts used
      simp only [pagesLoop, extractText]
      exact ih texts used

/-! ## Load failure (claim C4) -/

/-- Claim C4 (code bug): the source never checks the result of
`poppler::document::load_from_file` before calling `document->get_title()`
(main.cpp lines 162-163), so a failed load dereferences a null pointer and
the whole process crashes (`none`) instead of skipping the document and
continuing the batch. -/
theorem load_failure_crashes :
    ∀ fileName language : List Nat, convertPDF none fileName language = none := by
  intro fileName language; rfl

/-! ## Missing outline (claim C8) -/

/-- Claim C8: a document whose outline is absent is logged and skipped:
`convertPDF` returns before writing anything, producing zero output
records. -/
theorem no_outline_skipped (doc : PDoc) (fileName language : List Nat)
    (h : doc.toc = none) :
    convertPDF (some doc) fileName language = some ConvOut.skipped := by
  simp [convertPDF, convertPDFBody, h]

theorem no_outline_skipped_witness :
    convertPDF (some (PDoc.mk [116] none [[120]])) [102] [101] = some ConvOut.skipped :=
  no_outline_skipped (PDoc.mk [116] none [[120]]) [102] [101] rfl

/-! ## Boundary adjustment (claim C5) -/

/-- Claim C5 (counterexample): the adjustment loop moves the boundary over
EVERY byte with the high bit set, not only over continuation bytes.  Here the
title is the two-byte character `0xC3 0xA9`, found at offset `2` of the
content; the byte at offset `2` is the LEAD byte `0xC3` (not a continuation
byte, as `contShift` confirms by staying at `2`), yet the code shifts the
boundary to offset `1`, so the ASCII byte `0x63` at offset `1` ends up in the
section text. -/
theorem utf8Shift_moves_over_lead_byte :
    extractText [[195, 169]] [[]] [98, 99, 195, 169, 195, 169] []
      = ([], [[99, 195, 169, 195, 169], []], [[195, 169]]) ∧
    contShift [98, 99, 195, 169, 195, 169] 2 = 2 ∧
    utf8Shift [98, 99, 195, 169, 195, 169] 2 = 1 :=
  ⟨by decide, by decide, by decide⟩

/-- Claim C5 (amended): the boundary offset is adjusted backward over all
bytes with the high bit set (lead bytes of multi-byte characters as well as
continuation bytes); the adjustment never moves the offset forward, always
terminates, and lands either at offset `0` or on an ASCII byte, so the split
never lands on a continuation byte of a well-formed multi-byte character. -/
theorem utf8Shift_terminates_at_ascii :
    ∀ (content : List Nat) (pos : Nat),
      utf8Shift content pos ≤ pos ∧
      (utf8Shift content pos = 0 ∨ content.getD (utf8Shift content pos) 0 < 128) := by
  intro content pos
  induction pos with
  | zero => exact ⟨le_rfl, Or.inl rfl⟩
  | succ p ih =>
    by_cases h : 128 ≤ content.getD (p + 1) 0
    · rw [utf8Shift, if_pos h]
      exact ⟨ih.1.trans (Nat.le_succ p), ih.2⟩
    · rw [utf8Shift, if_neg h]
      exact ⟨le_rfl, Or.inr (by omega)⟩

end PdfSplit

namespace PdfSplit

/-! ## Levenshtein distance: correctness machinery (claim C7)

The reference recurrence `lev` peels characters from the front.  The table of
`distance` grows prefixes at the back, so entry `(i, j)` of the table equals
`lev` of the REVERSED prefixes; the edit-script characterization is shown for
`lev` and transported through list reversal. -/

lemma lev_nil_left (ys : List Nat) : lev [] ys = ys.length := by
  simp [lev]

lemma lev_nil_right (xs : List Nat) : lev xs [] = xs.length := by
  cases xs with
  | nil => simp [lev]
  | cons x t => simp [lev]

lemma lev_cons_cons (x y : Nat) (xs ys : List Nat) :
    lev (x :: xs) (y :: ys)
      = min (min (lev xs (y :: ys) + 1) (lev (x :: xs) ys + 1))
            (lev xs ys + if x = y then 0 else 1) := by
  simp [lev]

lemma lev_self (xs : List Nat) : lev xs xs = 0 := by
  induction xs with
  | nil => simp [lev]
  | cons x t ih => simp [lev_cons_cons, ih]

lemma editScript_lev : ∀ xs ys : List Nat, EditScript xs ys (lev xs ys) := by
  intro xs
  induction xs with
  | nil =>
    intro ys
    induction ys with
    | nil => simpa [lev_nil_left] using EditScript.nil
    | cons y t ih =>
      have ih' : EditScript ([] : List Nat) t t.length := by
        simpa [lev_nil_left] using ih
      have h : EditScript ([] : List Nat) (y :: t) (t.length + 1) :=
        EditScript.ins y ih'
      simpa [lev_nil_left] using h
  | cons x xs ihx =>
    intro ys
    induction ys with
    | nil =>
      have ih' : EditScript xs [] xs.length := by
        simpa [lev_nil_right] using ihx []
      have h : EditScript (x :: xs) [] (xs.length + 1) := EditScript.del x ih'
      simpa [lev_nil_right] using h
    | cons y ys ihy =>
      have hdel : EditScript (x :: xs) (y :: ys) (lev xs (y :: ys) + 1) :=
        EditScript.del x (ihx (y :: ys))
      have hins : EditScript (x :: xs) (y :: ys) (lev (x :: xs) ys + 1) :=
        EditScript.ins y ihy
      have hdiag : EditScript (x :: xs) (y :: ys) (lev xs ys + if x = y then 0 else 1) := by
        by_cases hxy : x = y
        · subst hxy
          simpa using EditScript.keep x (ihx ys)
        · simpa [hxy] using EditScript.subst x y (ihx ys)
      rw [lev_cons_cons]
      rcases le_total (min (lev xs (y :: ys) + 1) (lev (x :: xs) ys + 1))
          (lev xs ys + if x = y then 0 else 1) with h | h
      · rw [min_eq_left h]
        rcases le_total (lev xs (y :: ys) + 1) (lev (x :: xs) ys + 1) with h2 | h2
        · rw [min_eq_left h2]; exact hdel
        · rw [min_eq_right h2]; exact hins
      · rw [min_eq_right h]; exact hdiag

lemma lev_le_editScript : ∀ {xs ys : List Nat} {n : Nat},
    EditScript xs ys n → lev xs ys ≤ n := by
  intro xs ys n h
  induction h with
  | nil => simp [lev_nil_left]
  | keep c h ih =>
    rename_i xs ys n
    have h1 : lev (c :: xs) (c :: ys) ≤ lev xs ys + if c = c then 0 else 1 := by
      rw [lev_cons_cons]; exact min_le_right _ _
    simp only [if_pos rfl, Nat.add_zero] at h1
    exact h1.trans ih
  | subst x y h ih =>
    rename_i xs ys n
    have h1 : lev (x :: xs) (y :: ys) ≤ lev xs ys + if x = y then 0 else 1 := by
      rw [lev_cons_cons]; exact min_le_right _ _
    have h2 : (if x = y then 0 else 1) ≤ 1 := by split <;> omega
    omega
  | ins y h ih =>
    rename_i xs ys n
    cases xs with
    | nil =>
      rw [lev_nil_left] at ih ⊢
      simp only [List.length_cons]
      omega
    | cons a as =>
      have h1 : lev (a :: as) (y :: ys) ≤ lev (a :: as) ys + 1 := by
        rw [lev_cons_cons]
        exact le_trans (min_le_left _ _) (min_le_right _ _)
      omega
  | del x h ih =>
    rename_i xs ys n
    cases ys with
    | nil =>
      rw [lev_nil_right] at ih ⊢
      simp only [List.length_cons]
      omega
    | cons b bs =>
      have h1 : lev (x :: xs) (b :: bs) ≤ lev xs (b :: bs) + 1 := by
        rw [lev_cons_cons]
        exact le_trans (min_le_left _ _) (min_le_left _ _)
      omega

lemma editScript_snoc_keep (c : Nat) : ∀ {xs ys : List Nat} {n : Nat},
    EditScript xs ys n → EditScript (xs ++ [c]) (ys ++ [c]) n := by
  intro xs ys n h
  induction h with
  | nil => exact EditScript.keep c EditScript.nil
  | keep d h ih => exact EditScript.keep d ih
  | subst x y h ih => exact EditScript.subst x y ih
  | ins y h ih => exact EditScript.ins y ih
  | del x h ih => exact EditScript.del x ih

lemma editScript_snoc_subst (x y : Nat) : ∀ {xs ys : List Nat} {n : Nat},
    EditScript xs ys n → EditScript (xs ++ [x]) (ys ++ [y]) (n + 1) := by
  intro xs ys n h
  induction h with
  | nil => exact EditScript.subst x y EditScript.nil
  | keep d h ih => exact EditScript.keep d ih
  | subst a b h ih => exact EditScript.subst a b ih
  | ins b h ih => exact EditScript.ins b ih
  | del a h ih => exact EditScript.del a ih

lemma editScript_snoc_ins (y : Nat) : ∀ {xs ys : List Nat} {n : Nat},
    EditScript xs ys n → EditScript xs (ys ++ [y]) (n + 1) := by
  intro xs ys n h
  induction h with
  | nil => exact EditScript.ins y EditScript.nil
  | keep d h ih => exact EditScript.keep d ih
  | subst a b h ih => exact EditScript.subst a b ih
  | ins b h ih => exact EditScript.ins b ih
  | del a h ih => exact EditScript.del a ih

lemma editScript_snoc_del (x : Nat) : ∀ {xs ys : List Nat} {n : Nat},
    EditScript xs ys n → EditScript (xs ++ [x]) ys (n + 1) := by
  intro xs ys n h
  induction h with
  | nil => exact EditScript.del x EditScript.nil
  | keep d h ih => exact EditScript.keep d ih
  | subst a b h ih => exact EditScript.subst a b ih
  | ins b h ih => exact EditScript.ins b ih
  | del a h ih => exact EditScript.del a ih

lemma editScript_reverse : ∀ {xs ys : List Nat} {n : Nat},
    EditScript xs ys n → EditScript xs.reverse ys.reverse n := by
  intro xs ys n h
  induction h with
  | nil => exact EditScript.nil
  | keep c h ih => simpa [List.reverse_cons] using editScript_snoc_keep c ih
  | subst x y h ih => simpa [List.reverse_cons] using editScript_snoc_subst x y ih
  | ins y h ih => simpa [List.reverse_cons] using editScript_snoc_ins y ih
  | del x h ih => simpa [List.reverse_cons] using editScript_snoc_del x ih

lemma lev_reverse (xs ys : List Nat) : lev xs.reverse ys.reverse = lev xs ys := by
  apply le_antisymm
  · exact lev_le_editScript (editScript_reverse (editScript_lev xs ys))
  · have h := editScript_reverse (editScript_lev xs.reverse ys.reverse)
    rw [List.reverse_reverse, List.reverse_reverse] at h
    exact lev_le_editScript h

end PdfSplit

namespace PdfSplit

/-! ## The table of `distance` satisfies the textbook recurrence -/

lemma getD_tail (l : List Nat) (k d : Nat) : l.tail.getD k d = l.getD (k + 1) d := by
  cases l <;> rfl

lemma rowLoop_length (a : Nat) : ∀ (ys prev : List Nat) (left : Nat),
    (rowLoop a ys prev left).length = ys.length := by
  intro ys
  induction ys with
  | nil => intro prev left; rfl
  | cons y t ih => intro prev left; simp [rowLoop, ih]

lemma rowLoop_getD_zero (a : Nat) (ys prev : List Nat) (left : Nat) (h : 0 < ys.length) :
    (rowLoop a ys prev left).getD 0 0
      = min (min (prev.getD 1 0 + 1) (left + 1))
            (prev.getD 0 0 + if a = ys.getD 0 0 then 0 else 1) := by
  cases ys with
  | nil => simp at h
  | cons y t => rfl

lemma rowLoop_getD_succ (a : Nat) : ∀ (j : Nat) (ys prev : List Nat) (left : Nat),
    j + 1 < ys.length →
    (rowLoop a ys prev left).getD (j + 1) 0
      = min (min (prev.getD (j + 2) 0 + 1) ((rowLoop a ys prev left).getD j 0 + 1))
            (prev.getD (j + 1) 0 + if a = ys.getD (j + 1) 0 then 0 else 1) := by
  intro j
  induction j with
  | zero =>
    intro ys prev left h
    match ys, h with
    | y :: y' :: t, _ =>
      show (rowLoop a (y :: y' :: t) prev left).getD 1 0 = _
      rw [show rowLoop a (y :: y' :: t) prev left
            = (min (min (prev.getD 1 0 + 1) (left + 1))
                (prev.getD 0 0 + if a = y then 0 else 1))
              :: rowLoop a (y' :: t) prev.tail
                  (min (min (prev.getD 1 0 + 1) (left + 1))
                    (prev.getD 0 0 + if a = y then 0 else 1)) from rfl]
      rw [List.getD_cons_succ, List.getD_cons_zero]
      rw [rowLoop_getD_zero a (y' :: t) prev.tail _ (by simp)]
      rw [getD_tail, getD_tail]
      rfl
  | succ j ih =>
    intro ys prev left h
    match ys, h with
    | y :: t, h =>
      have ht : j + 1 < t.length := by simpa using h
      show (rowLoop a (y :: t) prev left).getD (j + 2) 0 = _
      rw [show rowLoop a (y :: t) prev left
            = (min (min (prev.getD 1 0 + 1) (left + 1))
                (prev.getD 0 0 + if a = y then 0 else 1))
              :: rowLoop a t prev.tail
                  (min (min (prev.getD 1 0 + 1) (left + 1))
                    (prev.getD 0 0 + if a = y then 0 else 1)) from rfl]
      rw [List.getD_cons_succ, List.getD_cons_succ, List.getD_cons_succ]
      rw [ih t prev.tail _ ht]
      rw [getD_tail, getD_tail]

lemma dRow_length (s1 s2 : List Nat) : ∀ i, (dRow s1 s2 i).length = s2.length + 1 := by
  intro i
  cases i with
  | zero => simp [dRow]
  | succ i => simp [dRow, rowLoop_length]

lemma dRow_zero_getD (s1 s2 : List Nat) (j : Nat) (h : j ≤ s2.length) :
    (dRow s1 s2 0).getD j 0 = j := by
  show (List.range (s2.length + 1)).getD j 0 = j
  rw [List.getD_eq_getElem?_getD, List.getElem?_range (by omega)]
  rfl

lemma dRow_succ_getD_zero (s1 s2 : List Nat) (i : Nat) :
    (dRow s1 s2 (i + 1)).getD 0 0 = i + 1 := rfl

/-- Entry `(i+1, j+1)` of the table satisfies exactly the recurrence of
main.cpp line 30: the minimum of the entry above plus one, the entry to the
left plus one, and the diagonal entry plus the substitution cost. -/
lemma dRow_recurrence (s1 s2 : List Nat) (i j : Nat) (hj : j < s2.length) :
    (dRow s1 s2 (i + 1)).getD (j + 1) 0
      = min (min ((dRow s1 s2 i).getD (j + 1) 0 + 1)
                 ((dRow s1 s2 (i + 1)).getD j 0 + 1))
            ((dRow s1 s2 i).getD j 0 + if s1.getD i 0 = s2.getD j 0 then 0 else 1) := by
  cases j with
  | zero =>
    show ((i + 1) :: rowLoop (s1.getD i 0) s2 (dRow s1 s2 i) (i + 1)).getD 1 0 = _
    rw [List.getD_cons_succ]
    rw [rowLoop_getD_zero _ _ _ _ (by omega)]
    rw [dRow_succ_getD_zero]
  | succ j =>
    show ((i + 1) :: rowLoop (s1.getD i 0) s2 (dRow s1 s2 i) (i + 1)).getD (j + 2) 0 = _
    rw [List.getD_cons_succ]
    rw [rowLoop_getD_succ _ _ _ _ _ (by omega)]
    rfl

end PdfSplit

namespace PdfSplit

/-- Entry `(i, j)` of the table equals the reference recurrence applied to the
reversed length-`i` and length-`j` prefixes. -/
lemma dRow_eq_lev (s1 s2 : List Nat) :
    ∀ i j, i ≤ s1.length → j ≤ s2.length →
    (dRow s1 s2 i).getD j 0 = lev ((s1.take i).reverse) ((s2.take j).reverse) := by
  intro i
  induction i with
  | zero =>
    intro j hi hj
    rw [dRow_zero_getD s1 s2 j hj]
    rw [List.take_zero, List.reverse_nil, lev_nil_left]
    simp only [List.length_reverse, List.length_take]
    omega
  | succ i ihi =>
    intro j
    induction j with
    | zero =>
      intro hi hj
      rw [dRow_succ_getD_zero]
      rw [List.take_zero, List.reverse_nil, lev_nil_right]
      simp only [List.length_reverse, List.length_take]
      omega
    | succ j ihj =>
      intro hi hj
      have hi' : i < s1.length := by omega
      have hj' : j < s2.length := by omega
      rw [dRow_recurrence s1 s2 i j hj']
      rw [ihi (j + 1) (by omega) hj]
      rw [ihj hi (by omega)]
      rw [ihi j (by omega) (by omega)]
      rw [List.getD_eq_getElem s1 0 hi', List.getD_eq_getElem s2 0 hj']
      rw [List.take_succ, List.take_succ]
      rw [List.getElem?_eq_getElem hi', List.getElem?_eq_getElem hj']
      simp only [Option.toList_some, List.reverse_append, List.reverse_singleton,
        List.singleton_append]
      rw [lev_cons_cons]

lemma distance_lev (s1 s2 : List Nat) : distance s1 s2 = lev s1 s2 := by
  show (dRow s1 s2 s1.length).getD s2.length 0 = lev s1 s2
  rw [dRow_eq_lev s1 s2 s1.length s2.length le_rfl le_rfl]
  rw [List.take_length, List.take_length]
  exact lev_reverse s1 s2

lemma distance_self (s : List Nat) : distance s s = 0 := by
  rw [distance_lev]
  exact lev_self s

/-- Claim C7: `distance` returns the Levenshtein edit distance: its value is
the least number of single-character insertions, deletions and substitutions
transforming the first string into the second, and by construction it is the
bottom-right entry of the dynamic-programming table with base cases
`d[i][0] = i` and `d[0][j] = j` (see `dRow`, `dRow_zero_getD`,
`dRow_succ_getD_zero` and `dRow_recurrence`). -/
theorem distance_isLeast_editScript (s1 s2 : List Nat) :
    IsLeast {n | EditScript s1 s2 n} (distance s1 s2) := by
  constructor
  · show EditScript s1 s2 (distance s1 s2)
    rw [distance_lev]
    exact editScript_lev s1 s2
  · intro n hn
    rw [distance_lev]
    exact lev_le_editScript hn

end PdfSplit

namespace PdfSplit

/-! ## Emission loop: positional pairing (claim C6) -/

lemma emitRecords_eq_zip (title topic language : List Nat) :
    ∀ (texts used : List (List Nat)), used.length = texts.length →
    emitRecords title topic language texts used
      = (texts.zip used).map
          (fun p => { title := title, topic := topic, language := language,
                      text := p.1, paragraph := p.2 }) := by
  intro texts
  induction texts with
  | nil => intro used h; rfl
  | cons t rest ih =>
    intro used h
    match used with
    | u :: us =>
      simp only [emitRecords, List.headD_cons, List.tail_cons, List.zip_cons_cons,
        List.map_cons, List.cons.injEq]
      exact ⟨trivial, ih us (by simpa using h)⟩

/-- Claim C6: the emission loop pairs the k-th finished section buffer with
the k-th entry of the matched-title log, strictly positionally (the result is
the positional zip of the two sequences, in the order both were produced);
each record is a `Record`, an object with exactly the five string-valued
fields `title`, `topic`, `language`, `text`, `paragraph`; and `title`,
`topic` and `language` are the same in every record of the document. -/
theorem emitRecords_positional_pairing
    (title topic language : List Nat) (texts used : List (List Nat))
    (h : used.length = texts.length) :
    emitRecords title topic language texts used
      = (texts.zip used).map
          (fun p => { title := title, topic := topic, language := language,
                      text := p.1, paragraph := p.2 }) ∧
    ∀ r ∈ emitRecords title topic language texts used,
      r.title = title ∧ r.topic = topic ∧ r.language = language := by
  refine ⟨emitRecords_eq_zip title topic language texts used h, ?_⟩
  intro r hr
  rw [emitRecords_eq_zip title topic language texts used h] at hr
  obtain ⟨p, -, rfl⟩ := List.mem_map.mp hr
  exact ⟨rfl, rfl, rfl⟩

theorem emitRecords_positional_pairing_witness :
    emitRecords [1] [2] [3] [[97], [98]] [[65], [66]]
      = [{ title := [1], topic := [2], language := [3], text := [97], paragraph := [65] },
         { title := [1], topic := [2], language := [3], text := [98], paragraph := [66] }] := by
  have h := (emitRecords_positional_pairing [1] [2] [3] [[97], [98]] [[65], [66]] rfl).1
  rw [h]
  decide

/-! ## Trimming loop: the past-the-end erase (claim C2) -/

lemma eraseIdx_length_self : ∀ (l : List (List Nat)), l.eraseIdx l.length = l := by
  intro l
  induction l with
  | nil => rfl
  | cons a t ih => simp [List.eraseIdx, ih]

lemma trimLoop_none (texts used : List (List Nat)) (h : used.length < texts.length) :
    ∀ fuel, trimLoop texts used fuel = none := by
  intro fuel
  induction fuel with
  | zero => rfl
  | succ f ih =>
    rw [trimLoop, if_pos h, eraseIdx_length_self]
    exact ih

lemma appendBack_length : ∀ (l : List (List Nat)) (s : List Nat),
    (appendBack l s).length = l.length := by
  intro l
  induction l with
  | nil => intro s; rfl
  | cons x t ih =>
    intro s
    cases t with
    | nil => rfl
    | cons y u => simpa [appendBack] using ih s

lemma extractText_lengths : ∀ (secs texts : List (List Nat)) (content : List Nat)
    (used : List (List Nat)), texts.length = used.length + 1 →
    (extractText secs texts content used).2.1.length
      = (extractText secs texts content used).2.2.length + 1 := by
  intro secs
  induction secs with
  | nil =>
    intro texts content used h
    exact h
  | cons sep rest ih =>
    intro texts content used h
    rw [extractText]
    by_cases hd : (scan content sep).1 > threshold sep.length
    · simp only [hd, if_true]
      simpa [appendBack_length] using h
    · simp only [hd, if_false]
      apply ih
      simp [appendBack_length, h]

lemma pagesLoop_lengths : ∀ (pages : List (List Nat))
    (st : List (List Nat) × List (List Nat) × List (List Nat)),
    st.2.1.length = st.2.2.length + 1 →
    (pagesLoop pages st).2.1.length = (pagesLoop pages st).2.2.length + 1 := by
  intro pages
  induction pages with
  | nil => intro st h; exact h
  | cons p rest ih =>
    intro st h
    obtain ⟨secs, texts, used⟩ := st
    rw [pagesLoop]
    exact ih _ (extractText_lengths secs texts (normalize p) used h)

/-- Claim C2 (code bug): for every document with an outline, the conversion
never reaches the emission loop at all.  The section-buffer invariant gives
`sectionTexts.size() = usedSections.size() + 1` when the trimming loop is
reached, so the loop at main.cpp lines 203-205 is entered — but its body is
`sectionTexts.erase(sectionTexts.end())`, an erase at the past-the-end
iterator, which under strict out-of-range semantics removes nothing, so the
loop never terminates (in C++ the call is undefined behaviour).  No leftover
buffer is ever discarded and no record is ever emitted, contradicting the
claimed invariant. -/
theorem toc_document_conversion_hangs (doc : PDoc) (children : List (List Nat))
    (fileName language : List Nat) (h : doc.toc = some children) :
    convertPDF (some doc) fileName language = some ConvOut.hang := by
  have hinv : (pagesLoop doc.pages.reverse (loadTOC children, [[]], [])).2.1.length
      = (pagesLoop doc.pages.reverse (loadTOC children, [[]], [])).2.2.length + 1 :=
    pagesLoop_lengths _ _ (by simp)
  show some (convertPDFBody doc fileName language) = some ConvOut.hang
  simp only [convertPDFBody, h]
  rw [trimLoop_none _ _ (by omega)]

theorem toc_document_conversion_hangs_witness :
    convertPDF (some (PDoc.mk [] (some [[65]]) [[120]])) [] [] = some ConvOut.hang :=
  toc_document_conversion_hangs (PDoc.mk [] (some [[65]]) [[120]]) [[65]] [] [] rfl

end PdfSplit

namespace PdfSplit

/-! ## Tolerance boundary (claim C3) -/

/-- Claim C3: for a title of length `L` the match tolerance is
`round(L * 0.1)` edits: if the best distance found by the scan is exactly
`threshold L`, the content is split at the (adjusted) best position and the
title is popped onto the used queue; if the best distance is `threshold L + 1`
or more, the entire unconsumed content is appended to the current section
buffer and no title is popped. -/
theorem tolerance_boundary_accept_reject
    (sep : List Nat) (rest texts : List (List Nat)) (content : List Nat)
    (used : List (List Nat)) :
    ((scan content sep).1 = threshold sep.length →
      extractText (sep :: rest) texts content used
        = extractText rest
            (appendBack texts (content.drop (utf8Shift content (scan content sep).2)) ++ [[]])
            (content.take (utf8Shift content (scan content sep).2))
            (used ++ [sep])) ∧
    (threshold sep.length < (scan content sep).1 →
      extractText (sep :: rest) texts content used
        = (sep :: rest, appendBack texts content, used)) := by
  constructor
  · intro h
    simp only [extractText, h, gt_iff_lt]
    rw [if_neg (lt_irrefl (threshold sep.length))]
  · intro h
    simp only [extractText, gt_iff_lt]
    rw [if_pos h]

theorem tolerance_boundary_accept_reject_witness :
    extractText [[97, 98, 99, 100, 101]] [[]] [97, 98, 99, 100, 120, 1, 1, 1, 1, 1] []
      = ([], [[97, 98, 99, 100, 120, 1, 1, 1, 1, 1], []], [[97, 98, 99, 100, 101]]) ∧
    extractText [[97, 98, 99, 100, 101]] [[]] [97, 98, 99, 120, 121, 1, 1, 1, 1, 1] []
      = ([[97, 98, 99, 100, 101]], [[97, 98, 99, 120, 121, 1, 1, 1, 1, 1]], []) := by
  constructor
  · have h := (tolerance_boundary_accept_reject [97, 98, 99, 100, 101] [] [[]]
      [97, 98, 99, 100, 120, 1, 1, 1, 1, 1] []).1 (by decide)
    rw [h]
    decide
  · have h := (tolerance_boundary_accept_reject [97, 98, 99, 100, 101] [] [[]]
      [97, 98, 99, 120, 121, 1, 1, 1, 1, 1] []).2 (by decide)
    rw [h]
    decide

/-! ## Exact matches and the scan range (claim C1) -/

lemma scanAux_finds_exact (content sep : List Nat) :
    ∀ (i dist pos j : Nat), sep.length ≤ j → j ≤ i →
      distance ((content.drop (j - sep.length)).take sep.length) sep = 0 →
      (scanAux content sep dist pos i).1 = 0 := by
  intro i
  induction i with
  | zero =>
    intro dist pos j hj hji hd
    have hj0 : j = 0 := by omega
    subst hj0
    simp only [scanAux]
    rw [if_neg (by omega)]
    have hd' : distance (content.take sep.length) sep = 0 := by
      simpa using hd
    simp [scanStep, hd']
  | succ i ih =>
    intro dist pos j hj hji hd
    simp only [scanAux]
    rw [if_neg (by omega : ¬ (i + 1 < sep.length))]
    by_cases h0 : (scanStep content sep dist pos (i + 1)).1 = 0
    · rw [if_pos h0]
      exact h0
    · rw [if_neg h0]
      refine ih _ _ j hj ?_ hd
      rcases Nat.lt_or_ge j (i + 1) with hlt | hge
      · omega
      · exfalso
        apply h0
        have hji1 : j = i + 1 := by omega
        subst hji1
        simp [scanStep, hd]

/-- Claim C1 (counterexample): the title `"ab"` occurs verbatim (at offset 2)
in the content `"xxab"`, yet `extractText` does not split: the scan loop
`for(i = content.size() - separator.size(); i >= separator.size(); i--)`
only visits candidate start offsets up to `content.size() - 2*|title|`, so
the occurrence at the end of the content is never examined; the best scanned
distance is 2, exceeding the tolerance 0, and the whole content is appended
with no title popped. -/
theorem exact_match_at_end_not_found :
    occursAt [97, 98] [120, 120, 97, 98] 2 ∧
    extractText [[97, 98]] [[]] [120, 120, 97, 98] []
      = ([[97, 98]], [[120, 120, 97, 98]], []) :=
  ⟨⟨by decide, by decide⟩, by decide⟩

/-- Claim C1 (amended): if the title occurs verbatim at an offset `o` that
the scan actually visits — that is, with at least `|title|` further content
bytes after the occurrence, `o + 2*|title| ≤ |content|` — then the scan finds
a candidate at edit distance 0 and `extractText` splits there, popping the
title, regardless of the tolerance value. -/
theorem exact_match_in_scan_range_splits
    (sep : List Nat) (rest texts : List (List Nat)) (content : List Nat)
    (used : List (List Nat)) (o : Nat)
    (hocc : occursAt sep content o)
    (hroom : o + 2 * sep.length ≤ content.length) :
    (scan content sep).1 = 0 ∧
    extractText (sep :: rest) texts content used
      = extractText rest
          (appendBack texts (content.drop (utf8Shift content (scan content sep).2)) ++ [[]])
          (content.take (utf8Shift content (scan content sep).2))
          (used ++ [sep]) := by
  have h0 : (scan content sep).1 = 0 := by
    show (scanAux content sep UINT_MAX 0 (content.length - sep.length)).1 = 0
    refine scanAux_finds_exact content sep _ _ _ (o + sep.length)
      (by omega) (by omega) ?_
    rw [Nat.add_sub_cancel, hocc.1]
    exact distance_self sep
  refine ⟨h0, ?_⟩
  simp only [extractText, h0, gt_iff_lt]
  rw [if_neg (Nat.not_lt_zero (threshold sep.length))]

theorem exact_match_in_scan_range_splits_witness :
    extractText [[97, 98]] [[]] [97, 98, 120, 120] []
      = ([], [[97, 98, 120, 120], []], [[97, 98]]) := by
  have h := exact_match_in_scan_range_splits [97, 98] [] [[]] [97, 98, 120, 120] [] 0
    ⟨by decide, by decide⟩ (by decide)
  rw [h.2]
  decide

end PdfSplit
